import Mathlib

/-!
Verification development for a small state-based CRDT library (grow-only
counter `GCounter` and positive-negative counter `PNCounter`).

The source keeps a `HashMap<String, u64>` per `GCounter`.  We embed the map
as an association list `List (String × Nat)`; a Rust `HashMap` never holds
two bindings for the same key, which we express with the `NodupKeys`
predicate, and `HashMap` equality (same set of key/value pairs) becomes the
extensional predicate `mapEq`.  `u64` values are embedded as `Nat` with the
bound `2^64` made explicit at each arithmetic step; a Rust arithmetic
overflow (`panic` when overflow checks are enabled) is embedded as `none`,
and the release-profile wrapping variant of `inc` is given separately as
`incWrap`.
-/

/-- The number of `u64` values: `u64::MAX + 1 = 2^64`. -/
def u64Lim : Nat := 2 ^ 64

/-- The largest `i64` value: `2^63 - 1`. -/
def i64Max : Nat := 2 ^ 63 - 1

/-- Association-list lookup, the embedding of `HashMap::get`: the value of
the first binding whose key equals `k`, if any. -/
def lookupKey (k : String) : List (String × Nat) → Option Nat
  | [] => none
  | p :: ps => if p.1 = k then some p.2 else lookupKey k ps

/-- An eventually consistent distributed counter that only grows.
Embeds `struct GCounter { counters: HashMap<String, u64> }`. -/
structure GCounter where
  counters : List (String × Nat)
deriving DecidableEq

namespace GCounter

/-- `GCounter::new`: the empty map. -/
def new : GCounter := ⟨[]⟩

/-- A Rust `HashMap` has at most one binding per key. -/
def NodupKeys (g : GCounter) : Prop := (g.counters.map Prod.fst).Nodup

/-- The mathematical total of all per-replica counts (the sum the source's
`self.counters.values().sum()` computes before any overflow check). -/
def valueSum (g : GCounter) : Nat := (g.counters.map Prod.snd).sum

/-- `GCounter::value`: sums all per-replica counts.  The `u64` sum panics on
overflow (overflow checks on), embedded as `none`. -/
def value (g : GCounter) : Option Nat :=
  if g.valueSum < u64Lim then some g.valueSum else none

/-- `GCounter::merge`: for each binding `(k, v_other)` of `other`, a binding
of `self` with the same key is raised to the pairwise `max`; bindings of
`other` whose key is absent from `self` are appended unchanged (the source
collects them in `new_counts` and inserts them after the loop). -/
def merge (self other : GCounter) : GCounter :=
  ⟨(self.counters.map fun p =>
      match lookupKey p.1 other.counters with
      | some w => (p.1, max p.2 w)
      | none => p)
    ++ other.counters.filter fun p => (lookupKey p.1 self.counters).isNone⟩

/-- `GCounter::inc`: `entry(replica).and_modify(|v| *v += count).or_insert(count)`.
The `u64` addition `*v += count` panics on overflow (overflow checks on),
embedded as `none`; inserting a fresh binding cannot overflow. -/
def inc (g : GCounter) (r : String) (n : Nat) : Option GCounter :=
  match lookupKey r g.counters with
  | some v =>
      if v + n < u64Lim then
        some ⟨g.counters.map fun p => if p.1 = r then (p.1, p.2 + n) else p⟩
      else none
  | none => some ⟨(r, n) :: g.counters⟩

/-- `GCounter::inc` under Rust's release profile, where the `*v += count`
addition wraps modulo `2^64` instead of panicking. -/
def incWrap (g : GCounter) (r : String) (n : Nat) : GCounter :=
  match lookupKey r g.counters with
  | some _ =>
      ⟨g.counters.map fun p => if p.1 = r then (p.1, (p.2 + n) % u64Lim) else p⟩
  | none => ⟨(r, n) :: g.counters⟩

/-- `HashMap` equality: the two maps bind exactly the same keys to the same
values. -/
def mapEq (a b : GCounter) : Prop :=
  ∀ k, lookupKey k a.counters = lookupKey k b.counters

end GCounter

/-- An eventually consistent distributed counter supporting decrements:
`struct PNCounter { inc: GCounter, dec: GCounter }`. -/
structure PNCounter where
  inc : GCounter
  dec : GCounter
deriving DecidableEq

namespace PNCounter

/-- `PNCounter::new`. -/
def new : PNCounter := ⟨GCounter.new, GCounter.new⟩

/-- `PNCounter::value`: `(self.inc.value() - self.dec.value()).try_into().expect("overflow")`.
Each component `value()` may panic (embedded `none`); the `u64` subtraction
panics on underflow (overflow checks on); `try_into::<i64>()` fails when the
difference exceeds `i64::MAX`, and `expect` turns that failure into a panic.
All panics are embedded as `none`. -/
def value (pn : PNCounter) : Option Int :=
  match pn.inc.value, pn.dec.value with
  | some i, some d =>
      if d ≤ i then
        if i - d ≤ i64Max then some ((i - d : Nat) : Int) else none
      else none
  | _, _ => none

/-- `PNCounter::merge`: component-wise `GCounter::merge`. -/
def merge (self other : PNCounter) : PNCounter :=
  ⟨self.inc.merge other.inc, self.dec.merge other.dec⟩

/-- `PNCounter::inc` (named `incr` here because `inc` is the field name):
delegates to the `inc` component's `GCounter::inc`. -/
def incr (pn : PNCounter) (r : String) (n : Nat) : Option PNCounter :=
  (pn.inc.inc r n).map fun g => ⟨g, pn.dec⟩

/-- `PNCounter::dec` (named `decr` here because `dec` is the field name):
delegates to the `dec` component's `GCounter::inc`. -/
def decr (pn : PNCounter) (r : String) (n : Nat) : Option PNCounter :=
  (pn.dec.inc r n).map fun g => ⟨pn.inc, g⟩

/-- Both component maps of a `PNCounter` have `HashMap`-like keys. -/
def NodupKeys (pn : PNCounter) : Prop :=
  pn.inc.NodupKeys ∧ pn.dec.NodupKeys

/-- `PNCounter` state equality as `HashMap` equality of both components. -/
def pnEq (a b : PNCounter) : Prop :=
  GCounter.mapEq a.inc b.inc ∧ GCounter.mapEq a.dec b.dec

end PNCounter

/-- A local operation on one `PNCounter` replica: `inc(r, n)` or `dec(r, n)`
with the replica id fixed by the caller. -/
inductive PNOp where
  | incOp (n : Nat)
  | decOp (n : Nat)
deriving DecidableEq

/-- Apply one `PNOp` at replica id `r`. -/
def applyPNOp (r : String) (pn : PNCounter) : PNOp → Option PNCounter
  | .incOp n => pn.incr r n
  | .decOp n => pn.decr r n

/-- Apply a sequence of `PNOp`s at replica id `r`; `none` as soon as one
operation panics. -/
def applyPNOps (r : String) : List PNOp → PNCounter → Option PNCounter
  | [], pn => some pn
  | op :: ops, pn => (applyPNOp r pn op).bind (applyPNOps r ops)

/-- Total amount incremented by a sequence of `PNOp`s. -/
def sumIncs : List PNOp → Nat
  | [] => 0
  | .incOp n :: ops => n + sumIncs ops
  | .decOp _ :: ops => sumIncs ops

/-- Total amount decremented by a sequence of `PNOp`s. -/
def sumDecs : List PNOp → Nat
  | [] => 0
  | .incOp _ :: ops => sumDecs ops
  | .decOp n :: ops => n + sumDecs ops

/-- An operation on a `GCounter`: a local `inc` or a `merge` with some
incoming counter state. -/
inductive GOp where
  | incOp (r : String) (n : Nat)
  | mergeOp (o : GCounter)

/-- Apply one `GOp`. -/
def applyGOp (g : GCounter) : GOp → Option GCounter
  | .incOp r n => g.inc r n
  | .mergeOp o => some (g.merge o)

/-- Apply a sequence of `GOp`s; `none` as soon as one operation panics. -/
def applyGOps : List GOp → GCounter → Option GCounter
  | [], g => some g
  | op :: ops, g => (applyGOp g op).bind (applyGOps ops)

/-- The spec's description of one merged entry, written from the spec's
words: a replica present in both maps gets the `max` of the two counts, a
replica present in only one map keeps that map's count, and a replica
present in neither is absent from the result. -/
def combineSpec : Option Nat → Option Nat → Option Nat
  | some va, some vb => some (max va vb)
  | some va, none => some va
  | none, some vb => some vb
  | none, none => none

instance (g : GCounter) : Decidable g.NodupKeys := by
  unfold GCounter.NodupKeys
  infer_instance

instance (pn : PNCounter) : Decidable pn.NodupKeys := by
  unfold PNCounter.NodupKeys
  infer_instance

/-! ### Lookup lemmas -/

theorem lookupKey_map (f : String × Nat → String × Nat)
    (hf : ∀ p, (f p).1 = p.1) (l : List (String × Nat)) (k : String) :
    lookupKey k (l.map f) = (lookupKey k l).map fun v => (f (k, v)).2 := by
  induction l with
  | nil => rfl
  | cons p ps ih =>
      obtain ⟨k', v'⟩ := p
      simp only [List.map_cons, lookupKey, hf]
      by_cases h : k' = k
      · subst h; simp
      · simp [h, ih]

theorem lookupKey_append_some (k : String) (l1 l2 : List (String × Nat))
    (v : Nat) (h : lookupKey k l1 = some v) :
    lookupKey k (l1 ++ l2) = some v := by
  induction l1 with
  | nil => simp [lookupKey] at h
  | cons p ps ih =>
      simp only [lookupKey, List.cons_append] at h ⊢
      by_cases hp : p.1 = k
      · simpa [hp] using h
      · simp only [hp, if_false] at h ⊢
        exact ih h

theorem lookupKey_append_none (k : String) (l1 l2 : List (String × Nat))
    (h : lookupKey k l1 = none) :
    lookupKey k (l1 ++ l2) = lookupKey k l2 := by
  induction l1 with
  | nil => rfl
  | cons p ps ih =>
      simp only [lookupKey, List.cons_append] at h ⊢
      by_cases hp : p.1 = k
      · simp [hp] at h
      · simp only [hp, if_false] at h ⊢
        exact ih h

theorem lookupKey_filter (q : String → Bool) (l : List (String × Nat))
    (k : String) (hq : q k = true) :
    lookupKey k (l.filter fun p => q p.1) = lookupKey k l := by
  induction l with
  | nil => rfl
  | cons p ps ih =>
      by_cases hp : p.1 = k
      · have hqp : q p.1 = true := by rw [hp]; exact hq
        simp [List.filter_cons, hqp, lookupKey, hp, hq]
      · cases hqp : q p.1 with
        | true => simp [List.filter_cons, hqp, lookupKey, hp, ih]
        | false => simp [List.filter_cons, hqp, lookupKey, hp, ih]

theorem lookupKey_eq_none_iff (k : String) (l : List (String × Nat)) :
    lookupKey k l = none ↔ k ∉ l.map Prod.fst := by
  induction l with
  | nil => simp [lookupKey]
  | cons p ps ih =>
      by_cases hp : p.1 = k
      · simp [lookupKey, hp]
      · simp [lookupKey, hp, ih, Ne.symm hp]

theorem lookupKey_mem (k : String) (v : Nat) (l : List (String × Nat))
    (h : lookupKey k l = some v) : (k, v) ∈ l := by
  induction l with
  | nil => simp [lookupKey] at h
  | cons p ps ih =>
      obtain ⟨a, b⟩ := p
      simp only [lookupKey] at h
      by_cases hp : a = k
      · subst hp
        rw [if_pos rfl] at h
        cases h
        exact List.mem_cons_self _ _
      · rw [if_neg hp] at h
        exact List.mem_cons_of_mem _ (ih h)

theorem mem_lookupKey (k : String) (v : Nat) (l : List (String × Nat))
    (hnd : (l.map Prod.fst).Nodup) (h : (k, v) ∈ l) :
    lookupKey k l = some v := by
  induction l with
  | nil => simp at h
  | cons p ps ih =>
      simp only [List.map_cons, List.nodup_cons] at hnd
      rcases List.mem_cons.1 h with h | h
      · subst h; simp [lookupKey]
      · have hk : k ∈ ps.map Prod.fst :=
          List.mem_map.2 ⟨(k, v), h, rfl⟩
        have hp : p.1 ≠ k := fun he => hnd.1 (he ▸ hk)
        simp [lookupKey, hp, ih hnd.2 h]

/-! ### The pointwise behaviour of merge -/

theorem merge_key_fst (b : GCounter) (p : String × Nat) :
    ((match lookupKey p.1 b.counters with
      | some w => (p.1, max p.2 w)
      | none => p) : String × Nat).1 = p.1 := by
  cases lookupKey p.1 b.counters <;> rfl

theorem lookupKey_merge (a b : GCounter) (k : String) :
    lookupKey k (a.merge b).counters =
      combineSpec (lookupKey k a.counters) (lookupKey k b.counters) := by
  unfold GCounter.merge
  have hmap := lookupKey_map
    (fun p => match lookupKey p.1 b.counters with
      | some w => (p.1, max p.2 w)
      | none => p)
    (merge_key_fst b) a.counters k
  cases ha : lookupKey k a.counters with
  | some v =>
      rw [ha] at hmap
      have h1 : lookupKey k (a.merge b).counters =
          some ((match lookupKey k b.counters with
            | some w => (k, max v w)
            | none => (k, v) : String × Nat).2) := by
        unfold GCounter.merge
        exact lookupKey_append_some _ _ _ _ hmap
      rw [GCounter.merge] at h1
      rw [h1]
      cases hb : lookupKey k b.counters <;> simp [combineSpec]
  | none =>
      rw [ha] at hmap
      have h2 : lookupKey k
          ((a.counters.map fun p =>
            match lookupKey p.1 b.counters with
            | some w => (p.1, max p.2 w)
            | none => p)
          ++ b.counters.filter fun p => (lookupKey p.1 a.counters).isNone) =
          lookupKey k (b.counters.filter fun p => (lookupKey p.1 a.counters).isNone) :=
        lookupKey_append_none _ _ _ hmap
      rw [h2, lookupKey_filter (fun s => (lookupKey s a.counters).isNone) _ _
        (by show (lookupKey k a.counters).isNone = true; rw [ha]; rfl)]
      cases hb : lookupKey k b.counters <;> simp [combineSpec]

/-! ### Algebra of combineSpec -/

theorem combineSpec_comm (x y : Option Nat) :
    combineSpec x y = combineSpec y x := by
  cases x <;> cases y <;> simp [combineSpec, Nat.max_comm]

theorem combineSpec_assoc (x y z : Option Nat) :
    combineSpec (combineSpec x y) z = combineSpec x (combineSpec y z) := by
  cases x <;> cases y <;> cases z <;> simp [combineSpec, Nat.max_assoc]

theorem combineSpec_self (x : Option Nat) : combineSpec x x = x := by
  cases x <;> simp [combineSpec]

theorem combineSpec_absorb (x y : Option Nat) :
    combineSpec (combineSpec x y) y = combineSpec x y := by
  cases x <;> cases y <;> simp [combineSpec, Nat.max_assoc]

theorem combineSpec_none_left (y : Option Nat) : combineSpec none y = y := by
  cases y <;> rfl

theorem combineSpec_none_right (x : Option Nat) : combineSpec x none = x := by
  cases x <;> rfl

/-! ### Key sets and well-formedness -/

theorem map_fst_map_keyFix (f : String × Nat → String × Nat)
    (hf : ∀ p, (f p).1 = p.1) (l : List (String × Nat)) :
    (l.map f).map Prod.fst = l.map Prod.fst := by
  induction l with
  | nil => rfl
  | cons p ps ih => simp [hf, ih]

theorem GCounter.merge_nodupKeys (a b : GCounter)
    (ha : a.NodupKeys) (hb : b.NodupKeys) : (a.merge b).NodupKeys := by
  unfold GCounter.NodupKeys GCounter.merge at *
  rw [List.map_append]
  rw [map_fst_map_keyFix _ (merge_key_fst b)]
  refine List.Nodup.append ha ?_ ?_
  · exact ((List.filter_sublist _).map Prod.fst).nodup hb
  · intro x hx1 hx2
    rcases List.mem_map.1 hx2 with ⟨p, hpmem, hpx⟩
    rcases List.mem_filter.1 hpmem with ⟨_, hq⟩
    have hnone : lookupKey p.1 a.counters = none := by
      cases hl : lookupKey p.1 a.counters
      · rfl
      · rw [hl] at hq; simp at hq
    exact ((lookupKey_eq_none_iff _ _).1 hnone) (hpx ▸ hx1)

theorem counters_perm (a b : GCounter) (hab : GCounter.mapEq a b)
    (ha : a.NodupKeys) (hb : b.NodupKeys) : a.counters.Perm b.counters := by
  refine (List.perm_ext_iff_of_nodup (List.Nodup.of_map _ ha) (List.Nodup.of_map _ hb)).2 ?_
  intro p
  obtain ⟨k, v⟩ := p
  constructor
  · intro hp
    exact lookupKey_mem _ _ _ (by rw [← hab k]; exact mem_lookupKey _ _ _ ha hp)
  · intro hp
    exact lookupKey_mem _ _ _ (by rw [hab k]; exact mem_lookupKey _ _ _ hb hp)

theorem GCounter.valueSum_eq_of_mapEq (a b : GCounter) (hab : GCounter.mapEq a b)
    (ha : a.NodupKeys) (hb : b.NodupKeys) : a.valueSum = b.valueSum :=
  ((counters_perm a b hab ha hb).map Prod.snd).sum_eq

theorem GCounter.value_eq_of_mapEq (a b : GCounter) (hab : GCounter.mapEq a b)
    (ha : a.NodupKeys) (hb : b.NodupKeys) : a.value = b.value := by
  unfold GCounter.value
  rw [GCounter.valueSum_eq_of_mapEq a b hab ha hb]

/-! ### Monotonicity building blocks -/

theorem sum_map_snd_le (l : List (String × Nat)) (f : String × Nat → String × Nat)
    (hf : ∀ p, p.2 ≤ (f p).2) :
    (l.map Prod.snd).sum ≤ ((l.map f).map Prod.snd).sum := by
  induction l with
  | nil => exact Nat.le_refl _
  | cons p ps ih =>
      simp only [List.map_cons, List.sum_cons]
      exact Nat.add_le_add (hf p) ih

theorem GCounter.inc_valueSum_le (g g' : GCounter) (r : String) (n : Nat)
    (h : g.inc r n = some g') : g.valueSum ≤ g'.valueSum := by
  cases hl : lookupKey r g.counters with
  | some v =>
      simp only [GCounter.inc, hl] at h
      by_cases hlt : v + n < u64Lim
      · rw [if_pos hlt] at h
        injection h with h
        subst h
        refine sum_map_snd_le g.counters _ ?_
        intro p
        by_cases hp : p.1 = r <;> simp [hp]
      · rw [if_neg hlt] at h
        exact Option.noConfusion h
  | none =>
      simp only [GCounter.inc, hl] at h
      injection h with h
      subst h
      simp only [GCounter.valueSum, List.map_cons, List.sum_cons]
      exact Nat.le_add_left _ _

theorem GCounter.inc_entry_mono (g g' : GCounter) (r : String) (n : Nat)
    (k : String) (c : Nat) (h : g.inc r n = some g')
    (hc : lookupKey k g.counters = some c) :
    ∃ c', lookupKey k g'.counters = some c' ∧ c ≤ c' := by
  cases hl : lookupKey r g.counters with
  | some v =>
      simp only [GCounter.inc, hl] at h
      by_cases hlt : v + n < u64Lim
      · rw [if_pos hlt] at h
        injection h with h
        subst h
        have hm := lookupKey_map (fun p => if p.1 = r then (p.1, p.2 + n) else p)
          (by intro p; by_cases hp : p.1 = r <;> simp [hp]) g.counters k
        rw [hc] at hm
        by_cases hk : k = r
        · refine ⟨c + n, ?_, Nat.le_add_right _ _⟩
          rw [hm]; simp [hk]
        · refine ⟨c, ?_, Nat.le_refl _⟩
          rw [hm]; simp [hk]
      · rw [if_neg hlt] at h
        exact Option.noConfusion h
  | none =>
      simp only [GCounter.inc, hl] at h
      injection h with h
      subst h
      by_cases hk : r = k
      · rw [hk] at hl
        rw [hl] at hc
        exact Option.noConfusion hc
      · refine ⟨c, ?_, Nat.le_refl _⟩
        show (if r = k then some n else lookupKey k g.counters) = some c
        rw [if_neg hk, hc]

theorem GCounter.merge_valueSum_le (a b : GCounter) :
    a.valueSum ≤ (a.merge b).valueSum := by
  unfold GCounter.merge GCounter.valueSum
  rw [List.map_append, List.sum_append]
  refine Nat.le_trans ?_ (Nat.le_add_right _ _)
  refine sum_map_snd_le a.counters _ ?_
  intro p
  cases lookupKey p.1 b.counters <;> simp

theorem GCounter.merge_entry_mono (a b : GCounter) (k : String) (c : Nat)
    (hc : lookupKey k a.counters = some c) :
    ∃ c', lookupKey k (a.merge b).counters = some c' ∧ c ≤ c' := by
  rw [lookupKey_merge, hc]
  cases hb : lookupKey k b.counters with
  | some w => exact ⟨max c w, by simp [combineSpec], Nat.le_max_left _ _⟩
  | none => exact ⟨c, by simp [combineSpec], Nat.le_refl _⟩

theorem applyGOps_mono (ops : List GOp) (g g' : GCounter)
    (h : applyGOps ops g = some g') :
    g.valueSum ≤ g'.valueSum ∧
      ∀ k c, lookupKey k g.counters = some c →
        ∃ c', lookupKey k g'.counters = some c' ∧ c ≤ c' := by
  induction ops generalizing g with
  | nil =>
      injection h with h
      subst h
      exact ⟨Nat.le_refl _, fun k c hc => ⟨c, hc, Nat.le_refl _⟩⟩
  | cons op ops ih =>
      simp only [applyGOps] at h
      cases hstep : applyGOp g op with
      | none => rw [hstep] at h; exact Option.noConfusion h
      | some g1 =>
          rw [hstep] at h
          have hrest : applyGOps ops g1 = some g' := h
          have step1 : g.valueSum ≤ g1.valueSum ∧
              ∀ k c, lookupKey k g.counters = some c →
                ∃ c', lookupKey k g1.counters = some c' ∧ c ≤ c' := by
            cases op with
            | incOp r n =>
                simp only [applyGOp] at hstep
                exact ⟨GCounter.inc_valueSum_le _ _ _ _ hstep,
                  fun k c hc => GCounter.inc_entry_mono _ _ _ _ _ _ hstep hc⟩
            | mergeOp o =>
                simp only [applyGOp] at hstep
                injection hstep with hstep
                subst hstep
                exact ⟨GCounter.merge_valueSum_le _ _,
                  fun k c hc => GCounter.merge_entry_mono _ _ _ _ hc⟩
          obtain ⟨h1, h2⟩ := step1
          obtain ⟨h3, h4⟩ := ih g1 hrest
          refine ⟨Nat.le_trans h1 h3, ?_⟩
          intro k c hc
      
          obtain ⟨c1, hc1, hle1⟩ := h2 k c hc
          obtain ⟨c2, hc2, hle2⟩ := h4 k c1 hc1
          exact ⟨c2, hc2, Nat.le_trans hle1 hle2⟩

/-! ### Merge algebra helpers -/

theorem gc_merge_comm_mapEq (a b : GCounter) :
    GCounter.mapEq (a.merge b) (b.merge a) := fun k => by
  rw [lookupKey_merge, lookupKey_merge, combineSpec_comm]

theorem gc_merge_assoc_mapEq (a b c : GCounter) :
    GCounter.mapEq ((a.merge b).merge c) (a.merge (b.merge c)) := fun k => by
  rw [lookupKey_merge, lookupKey_merge, lookupKey_merge, lookupKey_merge,
    combineSpec_assoc]

theorem gc_merge_self_mapEq (a : GCounter) :
    GCounter.mapEq (a.merge a) a := fun k => by
  rw [lookupKey_merge, combineSpec_self]

theorem gc_merge_absorb_mapEq (a b : GCounter) :
    GCounter.mapEq ((a.merge b).merge b) (a.merge b) := fun k => by
  rw [lookupKey_merge, lookupKey_merge, combineSpec_absorb]

theorem gc_merge_new_right_mapEq (c : GCounter) :
    GCounter.mapEq (c.merge GCounter.new) c := fun k => by
  rw [lookupKey_merge]
  show combineSpec (lookupKey k c.counters) none = _
  rw [combineSpec_none_right]

theorem gc_merge_new_left_mapEq (c : GCounter) :
    GCounter.mapEq (GCounter.new.merge c) c := fun k => by
  rw [lookupKey_merge]
  show combineSpec none (lookupKey k c.counters) = _
  rw [combineSpec_none_left]

theorem pn_value_congr (x y : PNCounter) (hi : x.inc.value = y.inc.value)
    (hd : x.dec.value = y.dec.value) : x.value = y.value := by
  unfold PNCounter.value
  rw [hi, hd]

/-! ### Claim theorems -/

/-- Claim C4: after `self.merge(other)`, every replica present in both maps
has the entry `max(self, other)`, a replica present only in `other` is
inserted with `other`'s count, a replica present only in `self` keeps its
old count, and no other keys exist in the result. -/
theorem gcounter_merge_pointwise (a b : GCounter) (k : String) :
    lookupKey k (a.merge b).counters =
      combineSpec (lookupKey k a.counters) (lookupKey k b.counters) :=
  lookupKey_merge a b k

/-- Claim C6: `GCounter` (and hence `PNCounter`) merge is associative as
full map equality. -/
theorem gcounter_merge_assoc (a b c : GCounter) (pa pb pc : PNCounter) :
    GCounter.mapEq ((a.merge b).merge c) (a.merge (b.merge c)) ∧
    PNCounter.pnEq ((pa.merge pb).merge pc) (pa.merge (pb.merge pc)) :=
  ⟨gc_merge_assoc_mapEq a b c,
    gc_merge_assoc_mapEq pa.inc pb.inc pc.inc,
    gc_merge_assoc_mapEq pa.dec pb.dec pc.dec⟩

/-- Claim C7: `GCounter` (and hence `PNCounter`) merge is idempotent:
`merge(A, A)` equals `A`, and repeating the same `merge(A, B)` yields the
same state as performing it once. -/
theorem gcounter_merge_idem (a b : GCounter) (pa pb : PNCounter) :
    GCounter.mapEq (a.merge a) a ∧
    GCounter.mapEq ((a.merge b).merge b) (a.merge b) ∧
    PNCounter.pnEq (pa.merge pa) pa ∧
    PNCounter.pnEq ((pa.merge pb).merge pb) (pa.merge pb) :=
  ⟨gc_merge_self_mapEq a,
    gc_merge_absorb_mapEq a b,
    ⟨gc_merge_self_mapEq pa.inc, gc_merge_self_mapEq pa.dec⟩,
    ⟨gc_merge_absorb_mapEq pa.inc pb.inc, gc_merge_absorb_mapEq pa.dec pb.dec⟩⟩

/-- Claim C10: the empty counter is an identity for merge, for `GCounter`
and `PNCounter` alike: merging a fresh empty counter into `C` leaves `C`'s
map unchanged, and merging `C` into a fresh empty counter yields a map equal
to `C`'s. -/
theorem gcounter_merge_empty_identity (c : GCounter) (pc : PNCounter) :
    GCounter.mapEq (c.merge GCounter.new) c ∧
    GCounter.mapEq (GCounter.new.merge c) c ∧
    PNCounter.pnEq (pc.merge PNCounter.new) pc ∧
    PNCounter.pnEq (PNCounter.new.merge pc) pc :=
  ⟨gc_merge_new_right_mapEq c,
    gc_merge_new_left_mapEq c,
    ⟨gc_merge_new_right_mapEq pc.inc, gc_merge_new_right_mapEq pc.dec⟩,
    ⟨gc_merge_new_left_mapEq pc.inc, gc_merge_new_left_mapEq pc.dec⟩⟩

/-- Claim C5: merge is commutative for `GCounter` and `PNCounter`, both as
full map equality and as observed via `value()` (states quantified over
well-formed `HashMap` contents, i.e. no duplicate keys). -/
theorem gcounter_merge_comm (a b : GCounter) (pa pb : PNCounter)
    (ha : a.NodupKeys) (hb : b.NodupKeys)
    (hpa : pa.NodupKeys) (hpb : pb.NodupKeys) :
    (GCounter.mapEq (a.merge b) (b.merge a) ∧
      (a.merge b).value = (b.merge a).value) ∧
    (PNCounter.pnEq (pa.merge pb) (pb.merge pa) ∧
      (pa.merge pb).value = (pb.merge pa).value) := by
  have hval : ∀ x y : GCounter, x.NodupKeys → y.NodupKeys →
      (x.merge y).value = (y.merge x).value := fun x y hx hy =>
    GCounter.value_eq_of_mapEq _ _ (gc_merge_comm_mapEq x y)
      (GCounter.merge_nodupKeys x y hx hy) (GCounter.merge_nodupKeys y x hy hx)
  refine ⟨⟨gc_merge_comm_mapEq a b, hval a b ha hb⟩,
    ⟨gc_merge_comm_mapEq pa.inc pb.inc, gc_merge_comm_mapEq pa.dec pb.dec⟩, ?_⟩
  exact pn_value_congr _ _ (hval pa.inc pb.inc hpa.1 hpb.1)
    (hval pa.dec pb.dec hpa.2 hpb.2)

/-- Witness for claim C5 at the spec's Scenario 1 and Scenario 2 states. -/
theorem gcounter_merge_comm_witness :
    (GCounter.mapEq
        ((GCounter.mk [("a", 13), ("b", 20)]).merge (GCounter.mk [("a", 10), ("b", 21)]))
        ((GCounter.mk [("a", 10), ("b", 21)]).merge (GCounter.mk [("a", 13), ("b", 20)])) ∧
      ((GCounter.mk [("a", 13), ("b", 20)]).merge (GCounter.mk [("a", 10), ("b", 21)])).value =
        ((GCounter.mk [("a", 10), ("b", 21)]).merge (GCounter.mk [("a", 13), ("b", 20)])).value) ∧
    (PNCounter.pnEq
        ((PNCounter.mk ⟨[("a", 10), ("b", 12)]⟩ ⟨[("a", 2)]⟩).merge
          (PNCounter.mk ⟨[("a", 10), ("b", 12)]⟩ ⟨[("b", 2)]⟩))
        ((PNCounter.mk ⟨[("a", 10), ("b", 12)]⟩ ⟨[("b", 2)]⟩).merge
          (PNCounter.mk ⟨[("a", 10), ("b", 12)]⟩ ⟨[("a", 2)]⟩)) ∧
      ((PNCounter.mk ⟨[("a", 10), ("b", 12)]⟩ ⟨[("a", 2)]⟩).merge
          (PNCounter.mk ⟨[("a", 10), ("b", 12)]⟩ ⟨[("b", 2)]⟩)).value =
        ((PNCounter.mk ⟨[("a", 10), ("b", 12)]⟩ ⟨[("b", 2)]⟩).merge
          (PNCounter.mk ⟨[("a", 10), ("b", 12)]⟩ ⟨[("a", 2)]⟩)).value) :=
  gcounter_merge_comm _ _ _ _ (by decide) (by decide)
    ⟨by decide, by decide⟩ ⟨by decide, by decide⟩

/-- Claim C8: `GCounter.value()` is monotonically non-decreasing over any
sequence of `inc` and `merge` operations that completes without panicking,
and each individual replica entry never decreases. -/
theorem gcounter_value_monotone (ops : List GOp) (g g' : GCounter)
    (h : applyGOps ops g = some g') :
    (∀ v v', g.value = some v → g'.value = some v' → v ≤ v') ∧
    (∀ k c, lookupKey k g.counters = some c →
      ∃ c', lookupKey k g'.counters = some c' ∧ c ≤ c') := by
  obtain ⟨h1, h2⟩ := applyGOps_mono ops g g' h
  refine ⟨?_, h2⟩
  intro v v' hv hv'
  by_cases hg : g.valueSum < u64Lim
  · simp only [GCounter.value, if_pos hg] at hv
    by_cases hg' : g'.valueSum < u64Lim
    · simp only [GCounter.value, if_pos hg'] at hv'
      injection hv with hv
      injection hv' with hv'
      subst hv
      subst hv'
      exact h1
    · simp only [GCounter.value, if_neg hg'] at hv'
      exact Option.noConfusion hv'
  · simp only [GCounter.value, if_neg hg] at hv
    exact Option.noConfusion hv

/-- Witness for claim C8: one `inc` then a `merge` applied to the empty
counter. -/
theorem gcounter_value_monotone_witness :
    (∀ v v', GCounter.new.value = some v →
      (GCounter.mk [("a", 1), ("b", 2)]).value = some v' → v ≤ v') ∧
    (∀ k c, lookupKey k GCounter.new.counters = some c →
      ∃ c', lookupKey k (GCounter.mk [("a", 1), ("b", 2)]).counters = some c' ∧
        c ≤ c') :=
  gcounter_value_monotone
    [GOp.incOp "a" 1, GOp.mergeOp (GCounter.mk [("b", 2)])]
    GCounter.new (GCounter.mk [("a", 1), ("b", 2)]) (by decide)

/-- Claim C2: whenever the unsigned difference `inc.value() - dec.value()`
cannot be represented in the signed `i64` result (the difference either
underflows or exceeds `i64::MAX`), `value()` fails explicitly (the panic
from `expect("overflow")`, embedded as `none`) instead of producing a
wrapped two's-complement number; `value` takes the state read-only, so the
counter state is unchanged by the failed call. -/
theorem pnvalue_unrepresentable_fails (pn : PNCounter) (i d : Nat)
    (hi : pn.inc.value = some i) (hd : pn.dec.value = some d)
    (hbad : ¬(d ≤ i ∧ i - d ≤ i64Max)) : pn.value = none := by
  simp only [PNCounter.value, hi, hd]
  by_cases hdi : d ≤ i
  · rw [if_pos hdi]
    by_cases hfit : i - d ≤ i64Max
    · exact absurd ⟨hdi, hfit⟩ hbad
    · rw [if_neg hfit]
  · rw [if_neg hdi]

/-- Witness for claim C2: a counter whose increment total is `2^63`, whose
difference from the zero decrement total exceeds `i64::MAX`. -/
theorem pnvalue_unrepresentable_fails_witness :
    (PNCounter.mk ⟨[("a", 2 ^ 63)]⟩ ⟨[]⟩).value = none :=
  pnvalue_unrepresentable_fails (PNCounter.mk ⟨[("a", 2 ^ 63)]⟩ ⟨[]⟩)
    (2 ^ 63) 0 (by decide) (by decide) (by decide)

/-- Claim C3: `PNCounter::value()` never returns a negative number; whenever
`dec.value() > inc.value()` the `u64` subtraction underflows and the call
fails (embedded `none`) even though the mathematical result may fit in
`i64`; the call returns normally exactly when `inc.value() >= dec.value()`
and the difference is at most `i64::MAX`. -/
theorem pnvalue_never_negative (pn : PNCounter) (i d : Nat)
    (hi : pn.inc.value = some i) (hd : pn.dec.value = some d) :
    (∀ v, pn.value = some v → 0 ≤ v) ∧
    (i < d → pn.value = none) ∧
    (∀ v, pn.value = some v →
      d ≤ i ∧ i - d ≤ i64Max ∧ v = ((i - d : Nat) : Int)) := by
  have hval : pn.value =
      if d ≤ i then
        if i - d ≤ i64Max then some ((i - d : Nat) : Int) else none
      else none := by
    simp only [PNCounter.value, hi, hd]
  refine ⟨?_, ?_, ?_⟩
  · intro v hv
    rw [hval] at hv
    by_cases hdi : d ≤ i
    · rw [if_pos hdi] at hv
      by_cases hfit : i - d ≤ i64Max
      · rw [if_pos hfit] at hv
        injection hv with hv
        rw [← hv]
        exact Int.natCast_nonneg _
      · rw [if_neg hfit] at hv
        exact Option.noConfusion hv
    · rw [if_neg hdi] at hv
      exact Option.noConfusion hv
  · intro hlt
    rw [hval, if_neg (Nat.not_le_of_lt hlt)]
  · intro v hv
    rw [hval] at hv
    by_cases hdi : d ≤ i
    · rw [if_pos hdi] at hv
      by_cases hfit : i - d ≤ i64Max
      · rw [if_pos hfit] at hv
        injection hv with hv
        exact ⟨hdi, hfit, hv.symm⟩
      · rw [if_neg hfit] at hv
        exact Option.noConfusion hv
    · rw [if_neg hdi] at hv
      exact Option.noConfusion hv

/-- Witness for claim C3: one decrement and no increments; the true value
`-1` is representable in `i64`, yet `value()` fails. -/
theorem pnvalue_never_negative_witness :
    (∀ v, (PNCounter.mk ⟨[]⟩ ⟨[("a", 1)]⟩).value = some v → 0 ≤ v) ∧
    ((0 : Nat) < 1 → (PNCounter.mk ⟨[]⟩ ⟨[("a", 1)]⟩).value = none) ∧
    (∀ v, (PNCounter.mk ⟨[]⟩ ⟨[("a", 1)]⟩).value = some v →
      1 ≤ 0 ∧ 0 - 1 ≤ i64Max ∧ v = ((0 - 1 : Nat) : Int)) :=
  pnvalue_never_negative (PNCounter.mk ⟨[]⟩ ⟨[("a", 1)]⟩) 0 1
    (by decide) (by decide)

/-- Counterexample to claim C9 as stated: at the state `{"a": u64::MAX}`,
`inc("a", 1)` neither saturates at a documented ceiling nor fails with an
explicit OverflowError.  Under the release profile the addition silently
wraps to 0 (which is not the ceiling `u64::MAX`), and with overflow checks
on it panics with a generic arithmetic-overflow panic. -/
theorem gcounter_inc_overflow_counterexample :
    GCounter.inc ⟨[("a", u64Lim - 1)]⟩ "a" 1 = none ∧
    (GCounter.incWrap ⟨[("a", u64Lim - 1)]⟩ "a" 1).counters = [("a", 0)] ∧
    (0 : Nat) ≠ u64Lim - 1 := by decide

/-- Claim C9 (amended): an `inc` that would push a replica's accumulated
count past `u64::MAX` performs an unchecked `u64` addition: with overflow
checks enabled it panics (embedded `none`), and under the release profile
it silently wraps modulo `2^64`; the code neither saturates nor raises a
typed OverflowError. -/
theorem gcounter_inc_overflow (g : GCounter) (r : String) (n v : Nat)
    (_hn : n < u64Lim) (hv : lookupKey r g.counters = some v)
    (hov : u64Lim ≤ v + n) :
    g.inc r n = none ∧
    lookupKey r (g.incWrap r n).counters = some ((v + n) % u64Lim) := by
  constructor
  · simp only [GCounter.inc, hv]
    rw [if_neg (Nat.not_lt.2 hov)]
  · simp only [GCounter.incWrap, hv]
    have hm := lookupKey_map (fun p => if p.1 = r then (p.1, (p.2 + n) % u64Lim) else p)
      (by intro p; by_cases hp : p.1 = r <;> simp [hp]) g.counters r
    rw [hv] at hm
    rw [hm]
    simp

/-- Witness for the amended claim C9 at the state `{"a": u64::MAX}` with
`inc("a", 1)`. -/
theorem gcounter_inc_overflow_witness :
    GCounter.inc ⟨[("a", u64Lim - 1)]⟩ "a" 1 = none ∧
    lookupKey "a" ((GCounter.mk [("a", u64Lim - 1)]).incWrap "a" 1).counters =
      some ((u64Lim - 1 + 1) % u64Lim) :=
  gcounter_inc_overflow ⟨[("a", u64Lim - 1)]⟩ "a" 1 (u64Lim - 1)
    (by decide) (by decide) (by decide)

/-! ### Single-writer states for the interleaving claim -/

/-- A `GCounter` owned by the single writer `r` holding total `m`: either no
entry yet (`m = 0`) or exactly the one entry `(r, m)`. -/
def singleKey (r : String) (m : Nat) (g : GCounter) : Prop :=
  (g.counters = [] ∧ m = 0) ∨ g.counters = [(r, m)]

theorem inc_singleKey (r : String) (m n : Nat) (g g' : GCounter)
    (hs : singleKey r m g) (h : g.inc r n = some g') :
    singleKey r (m + n) g' := by
  rcases hs with ⟨hemp, hm⟩ | hone
  · have hl : lookupKey r g.counters = none := by rw [hemp]; rfl
    simp only [GCounter.inc, hl] at h
    injection h with h
    subst h
    right
    show (r, n) :: g.counters = [(r, m + n)]
    rw [hemp, hm, Nat.zero_add]
  · have hl : lookupKey r g.counters = some m := by rw [hone]; simp [lookupKey]
    simp only [GCounter.inc, hl] at h
    by_cases hlt : m + n < u64Lim
    · rw [if_pos hlt] at h
      injection h with h
      subst h
      right
      show g.counters.map _ = [(r, m + n)]
      rw [hone]
      simp
    · rw [if_neg hlt] at h
      exact Option.noConfusion h

theorem applyPNOps_singleKey (r : String) (ops : List PNOp)
    (pn pn' : PNCounter) (mi md : Nat)
    (hi : singleKey r mi pn.inc) (hd : singleKey r md pn.dec)
    (h : applyPNOps r ops pn = some pn') :
    singleKey r (mi + sumIncs ops) pn'.inc ∧
      singleKey r (md + sumDecs ops) pn'.dec := by
  induction ops generalizing pn mi md with
  | nil =>
      injection h with h
      subst h
      simp only [sumIncs, sumDecs, Nat.add_zero]
      exact ⟨hi, hd⟩
  | cons op ops ih =>
      simp only [applyPNOps] at h
      cases hstep : applyPNOp r pn op with
      | none => rw [hstep] at h; exact Option.noConfusion h
      | some pn1 =>
          rw [hstep] at h
          have hrest : applyPNOps r ops pn1 = some pn' := h
          cases op with
          | incOp n =>
              simp only [applyPNOp, PNCounter.incr] at hstep
              cases hg : pn.inc.inc r n with
              | none => rw [hg] at hstep; exact Option.noConfusion hstep
              | some g =>
                  rw [hg] at hstep
                  injection hstep with hstep
                  subst hstep
                  have h1 : singleKey r (mi + n) g :=
                    inc_singleKey r mi n pn.inc g hi hg
                  obtain ⟨ha, hb⟩ := ih ⟨g, pn.dec⟩ (mi + n) md h1 hd hrest
                  constructor
                  · simpa [sumIncs, Nat.add_assoc] using ha
                  · simpa [sumDecs] using hb
          | decOp n =>
              simp only [applyPNOp, PNCounter.decr] at hstep
              cases hg : pn.dec.inc r n with
              | none => rw [hg] at hstep; exact Option.noConfusion hstep
              | some g =>
                  rw [hg] at hstep
                  injection hstep with hstep
                  subst hstep
                  have h1 : singleKey r (md + n) g :=
                    inc_singleKey r md n pn.dec g hd hg
                  obtain ⟨ha, hb⟩ := ih ⟨pn.inc, g⟩ mi (md + n) hi h1 hrest
                  constructor
                  · simpa [sumIncs] using ha
                  · simpa [sumDecs, Nat.add_assoc] using hb

theorem singleKey_merge_valueSum (rA rB : String) (a b : Nat)
    (A B : GCounter) (hr : rA ≠ rB)
    (hA : singleKey rA a A) (hB : singleKey rB b B) :
    (A.merge B).valueSum = a + b := by
  rcases hA with ⟨hA, ha0⟩ | hA <;> rcases hB with ⟨hB, hb0⟩ | hB
  · subst ha0; subst hb0
    simp [GCounter.merge, GCounter.valueSum, hA, hB]
  · subst ha0
    simp [GCounter.merge, GCounter.valueSum, hA, hB, lookupKey]
  · subst hb0
    simp [GCounter.merge, GCounter.valueSum, hA, hB, lookupKey]
  · simp [GCounter.merge, GCounter.valueSum, hA, hB, lookupKey, hr, Ne.symm hr]

theorem singleKey_merge_value (rA rB : String) (a b : Nat)
    (A B : GCounter) (hr : rA ≠ rB)
    (hA : singleKey rA a A) (hB : singleKey rB b B) (hlim : a + b < u64Lim) :
    (A.merge B).value = some (a + b) := by
  rw [GCounter.value, singleKey_merge_valueSum rA rB a b A B hr hA hB,
    if_pos hlim]

theorem pn_merge_value_of_singleKey (rA rB : String) (hr : rA ≠ rB)
    (A B : PNCounter) (ia ib da db : Nat)
    (hAi : singleKey rA ia A.inc) (hAd : singleKey rA da A.dec)
    (hBi : singleKey rB ib B.inc) (hBd : singleKey rB db B.dec)
    (hIlt : ia + ib < u64Lim) (hDlt : da + db < u64Lim)
    (hDI : da + db ≤ ia + ib) (hfit : (ia + ib) - (da + db) ≤ i64Max) :
    (A.merge B).value = some (((ia + ib : Nat) : Int) - ((da + db : Nat) : Int)) := by
  have hvi : (A.inc.merge B.inc).value = some (ia + ib) :=
    singleKey_merge_value rA rB ia ib A.inc B.inc hr hAi hBi hIlt
  have hvd : (A.dec.merge B.dec).value = some (da + db) :=
    singleKey_merge_value rA rB da db A.dec B.dec hr hAd hBd hDlt
  simp only [PNCounter.value, PNCounter.merge, hvi, hvd]
  rw [if_pos hDI, if_pos hfit, Nat.cast_sub hDI]

/-- Counterexample to claim C1 as stated: with the single operation
`dec("a", 1)` on replica "a" and no operations on replica "b", the claimed
result is the signed difference `0 - 1 = -1`, but after the merge `value()`
fails (the `u64` subtraction underflows and the conversion panics, embedded
`none`) instead of returning `some (-1)`. -/
theorem pncounter_interleaving_counterexample :
    applyPNOps "a" [PNOp.decOp 1] PNCounter.new =
      some (PNCounter.mk ⟨[]⟩ ⟨[("a", 1)]⟩) ∧
    applyPNOps "b" ([] : List PNOp) PNCounter.new = some PNCounter.new ∧
    ((PNCounter.mk ⟨[]⟩ ⟨[("a", 1)]⟩).merge PNCounter.new).value = none ∧
    ((sumIncs [PNOp.decOp 1] : Int) - (sumDecs [PNOp.decOp 1] : Int) = -1) := by
  decide

/-- Claim C1 (amended): for every pair of operation sequences applied at two
distinct replica ids to fresh counters (single-writer discipline), if the
run completes without panicking, the total increments and the total
decrements each fit in `u64`, the decrement total does not exceed the
increment total, and their difference fits in `i64`, then after merging (in
either order) `value()` returns the sum of all increments minus the sum of
all decrements as a signed integer, and a duplicate merge leaves the state
unchanged.  (The original claim omits the range conditions; when the
decrements exceed the increments, `value()` fails instead of returning the
negative difference.) -/
theorem pncounter_interleaving (rA rB : String) (opsA opsB : List PNOp)
    (A B : PNCounter) (hr : rA ≠ rB)
    (hA : applyPNOps rA opsA PNCounter.new = some A)
    (hB : applyPNOps rB opsB PNCounter.new = some B)
    (hIlt : sumIncs opsA + sumIncs opsB < u64Lim)
    (hDlt : sumDecs opsA + sumDecs opsB < u64Lim)
    (hDI : sumDecs opsA + sumDecs opsB ≤ sumIncs opsA + sumIncs opsB)
    (hfit : (sumIncs opsA + sumIncs opsB) - (sumDecs opsA + sumDecs opsB) ≤ i64Max) :
    (A.merge B).value =
      some (((sumIncs opsA + sumIncs opsB : Nat) : Int) -
        ((sumDecs opsA + sumDecs opsB : Nat) : Int)) ∧
    (B.merge A).value =
      some (((sumIncs opsA + sumIncs opsB : Nat) : Int) -
        ((sumDecs opsA + sumDecs opsB : Nat) : Int)) ∧
    PNCounter.pnEq ((A.merge B).merge B) (A.merge B) := by
  have hnew : singleKey rA 0 PNCounter.new.inc ∧ singleKey rA 0 PNCounter.new.dec :=
    ⟨Or.inl ⟨rfl, rfl⟩, Or.inl ⟨rfl, rfl⟩⟩
  obtain ⟨hAi, hAd⟩ := applyPNOps_singleKey rA opsA PNCounter.new A 0 0
    hnew.1 hnew.2 hA
  obtain ⟨hBi, hBd⟩ := applyPNOps_singleKey rB opsB PNCounter.new B 0 0
    (Or.inl ⟨rfl, rfl⟩) (Or.inl ⟨rfl, rfl⟩) hB
  rw [Nat.zero_add] at hAi hAd hBi hBd
  refine ⟨?_, ?_, ?_⟩
  · exact pn_merge_value_of_singleKey rA rB hr A B _ _ _ _
      hAi hAd hBi hBd hIlt hDlt hDI hfit
  · have h2 := pn_merge_value_of_singleKey rB rA (Ne.symm hr) B A
      (sumIncs opsB) (sumIncs opsA) (sumDecs opsB) (sumDecs opsA)
      hBi hBd hAi hAd
      (by rw [Nat.add_comm]; exact hIlt) (by rw [Nat.add_comm]; exact hDlt)
      (by rw [Nat.add_comm (sumDecs opsB), Nat.add_comm (sumIncs opsB)]; exact hDI)
      (by rw [Nat.add_comm (sumIncs opsB), Nat.add_comm (sumDecs opsB)]; exact hfit)
    rw [Nat.add_comm (sumIncs opsB), Nat.add_comm (sumDecs opsB)] at h2
    exact h2
  · exact ⟨gc_merge_absorb_mapEq A.inc B.inc, gc_merge_absorb_mapEq A.dec B.dec⟩

/-- Witness for the amended claim C1: replica "a" performs `inc 2`, replica
"b" performs `dec 1`; the merged value is `2 - 1 = 1` in either merge order,
and the duplicate merge is a no-op. -/
theorem pncounter_interleaving_witness :
    ((PNCounter.mk ⟨[("a", 2)]⟩ ⟨[]⟩).merge (PNCounter.mk ⟨[]⟩ ⟨[("b", 1)]⟩)).value =
      some (((sumIncs [PNOp.incOp 2] + sumIncs [PNOp.decOp 1] : Nat) : Int) -
        ((sumDecs [PNOp.incOp 2] + sumDecs [PNOp.decOp 1] : Nat) : Int)) ∧
    ((PNCounter.mk ⟨[]⟩ ⟨[("b", 1)]⟩).merge (PNCounter.mk ⟨[("a", 2)]⟩ ⟨[]⟩)).value =
      some (((sumIncs [PNOp.incOp 2] + sumIncs [PNOp.decOp 1] : Nat) : Int) -
        ((sumDecs [PNOp.incOp 2] + sumDecs [PNOp.decOp 1] : Nat) : Int)) ∧
    PNCounter.pnEq
      (((PNCounter.mk ⟨[("a", 2)]⟩ ⟨[]⟩).merge (PNCounter.mk ⟨[]⟩ ⟨[("b", 1)]⟩)).merge
        (PNCounter.mk ⟨[]⟩ ⟨[("b", 1)]⟩))
      ((PNCounter.mk ⟨[("a", 2)]⟩ ⟨[]⟩).merge (PNCounter.mk ⟨[]⟩ ⟨[("b", 1)]⟩)) :=
  pncounter_interleaving "a" "b" [PNOp.incOp 2] [PNOp.decOp 1]
    (PNCounter.mk ⟨[("a", 2)]⟩ ⟨[]⟩) (PNCounter.mk ⟨[]⟩ ⟨[("b", 1)]⟩)
    (by decide) (by decide) (by decide) (by decide) (by decide) (by decide)
    (by decide)
